import Mathlib

/- Verification of the dithering and bit-packing core of epub2images
   (src/epub2images.py).  Pixel buffers are modelled as functions from row
   and column indices to exact rationals together with explicit dimensions;
   the numpy arrays of the source are row-major 2-D arrays, and each loop
   of the source becomes structural recursion over the row-major pixel
   index k, whose pixel is at row k / n and column k mod n. -/

/-- Rounding of a rational to the nearest integer with ties to even:
the semantics of the Python builtin round applied to a float scalar,
which is what dither uses at its quantization step. -/
def rnd (x : ℚ) : ℤ :=
  if x - ⌊x⌋ < 1/2 then ⌊x⌋
  else if 1/2 < x - ⌊x⌋ then ⌊x⌋ + 1
  else if ⌊x⌋ % 2 = 0 then ⌊x⌋ else ⌊x⌋ + 1

/-- Diffusion kernel: the error diffusion matrix parameter of dither,
with kr rows, kc columns and entry function w. -/
structure Kern where
  kr : ℕ
  kc : ℕ
  w : ℕ → ℕ → ℚ

/-- Middle column index of the kernel: mid = int(matrix.shape1 / 2). -/
def Kern.mid (K : Kern) : ℕ := K.kc / 2

/-- The floyd_steinberg kernel of the source: 1/16 * [0 0 7; 3 5 1]. -/
def floydSteinberg : Kern :=
  ⟨2, 3, fun a t =>
    (1/16) * (if a = 0 ∧ t = 2 then 7
      else if a = 1 ∧ t = 0 then 3
      else if a = 1 ∧ t = 1 then 5
      else if a = 1 ∧ t = 2 then 1 else 0)⟩

/-- One iteration of the nested loop of dither: read old = px i j,
write px i j = round(old), then add err * (matrix slice) onto the
clipped numpy slice px[i:hii, loj:hij] in place, where the matrix slice
is matrix[0:hii-i, mid+loj-j:mid+hij-j]. -/
def stepPixel (K : Kern) (m n i j : ℕ) (b : ℕ → ℕ → ℚ) : ℕ → ℕ → ℚ :=
  let old := b i j
  let q : ℚ := (rnd old : ℤ)
  let err := old - q
  let loj := j - K.mid
  let hij := min n (j + K.mid + 1)
  let hii := min m (i + K.kr)
  fun r c =>
    let base := if r = i ∧ c = j then q else b r c
    if i ≤ r ∧ r < hii ∧ loj ≤ c ∧ c < hij then
      base + err * K.w (r - i) (K.mid + c - j)
    else base

/-- State of the working buffer after the first k iterations of the
row-major double loop of dither. -/
def ditherIter (K : Kern) (m n : ℕ) (px0 : ℕ → ℕ → ℚ) : ℕ → ℕ → ℕ → ℚ
  | 0 => px0
  | k + 1 => stepPixel K m n (k / n) (k % n) (ditherIter K m n px0 k)

/-- The function dither of the source: px = px / 255, run the row-major
error diffusion loop over all m * n pixels, return px * 255. -/
def dither (K : Kern) (m n : ℕ) (px : ℕ → ℕ → ℚ) : ℕ → ℕ → ℚ :=
  fun r c => ditherIter K m n (fun i j => px i j / 255) (m * n) r c * 255

/-- Accumulated sample at pixel (i, j) just before it is quantized. -/
def oldAt (K : Kern) (m n : ℕ) (px0 : ℕ → ℕ → ℚ) (i j : ℕ) : ℚ :=
  ditherIter K m n px0 (i * n + j) i j

/-- Quantized value chosen at pixel (i, j). -/
def qAt (K : Kern) (m n : ℕ) (px0 : ℕ → ℕ → ℚ) (i j : ℕ) : ℤ :=
  rnd (oldAt K m n px0 i j)

/-- Residual error introduced by the quantization at pixel (i, j). -/
def errAt (K : Kern) (m n : ℕ) (px0 : ℕ → ℕ → ℚ) (i j : ℕ) : ℚ :=
  oldAt K m n px0 i j - qAt K m n px0 i j

/-- Contribution that the iteration of pixel t (row-major index) adds to
cell (r, c) of the buffer. -/
def contrib (K : Kern) (m n : ℕ) (px0 : ℕ → ℕ → ℚ) (t r c : ℕ) : ℚ :=
  if t / n ≤ r ∧ r < min m (t / n + K.kr) ∧
      t % n - K.mid ≤ c ∧ c < min n (t % n + K.mid + 1) then
    errAt K m n px0 (t / n) (t % n) * K.w (r - t / n) (K.mid + c - t % n)
  else 0

/-- Index set of the kernel entries. -/
def kIdx (K : Kern) : Finset (ℕ × ℕ) := Finset.range K.kr ×ˢ Finset.range K.kc

/-- Sum of all kernel weights. -/
def kernelSum (K : Kern) : ℚ := ∑ p ∈ kIdx K, K.w p.1 p.2

/-- Kernel of the counterexample to claim C1: nonnegative entries, odd
column count, zero first row at and left of center, total weight 1. -/
def K1c : Kern :=
  ⟨2, 3, fun a t =>
    if a = 0 ∧ t = 2 then 7/16 else if a = 1 ∧ t = 1 then 9/16 else 0⟩

/-- Input buffer of the counterexample to claim C1. -/
def px1c : ℕ → ℕ → ℚ := fun i j =>
  if i = 0 then (if j = 0 then 8 else 124) else (if j = 0 then 123 else 255)

/-- Threshold matrix of the source: bayer = 1/64 * (8 x 8 index matrix),
kept as the literal list of rows. -/
def bayerRows : List (List ℚ) :=
  [[0, 32, 8, 40, 2, 34, 10, 42], [48, 16, 56, 24, 50, 18, 58, 26],
   [12, 44, 4, 36, 14, 46, 6, 38], [60, 28, 52, 20, 62, 30, 54, 22],
   [3, 35, 11, 43, 1, 33, 9, 41], [51, 19, 59, 27, 49, 17, 57, 25],
   [15, 47, 7, 39, 13, 45, 5, 37], [63, 31, 55, 23, 61, 29, 53, 21]]

/-- Entry (r, c) of the bayer threshold matrix, including the 1/64
factor of the source. -/
def bayerM (r c : ℕ) : ℚ := (1/64) * ((bayerRows.getD r []).getD c 0)

/-- Side length of the bayer matrix, len(bayer) in the source. -/
def bayerLen : ℕ := bayerRows.length

/-- State of the output buffer o_px of dither_bayer after the first k
iterations of its row-major double loop over px.shape. -/
def bayerIter (n : ℕ) (px : ℕ → ℕ → ℚ) : ℕ → ℕ → ℕ → ℚ
  | 0 => fun _ _ => 0
  | k + 1 => fun r c =>
      if r = k / n ∧ c = k % n then
        (if bayerM ((k / n) % bayerLen) ((k % n) % bayerLen) < px (k / n) (k % n)
          then 255 else 0)
      else bayerIter n px k r c

/-- The function dither_bayer of the source: o_px = zeros(px.shape);
for each pixel (x, y), write 255 into o_px if px[x, y] exceeds the
tiled threshold bayer[x mod len(bayer), y mod len(bayer)], else 0. -/
def dither_bayer (m n : ℕ) (px : ℕ → ℕ → ℚ) : ℕ → ℕ → ℚ :=
  bayerIter n px (m * n)

/-- The 2-bit packing loop of main: for k in range(0, len, 4), read the
four entries at k, k+1, k+2, k+3 of the byte string (an IndexError is
raised when fewer than four remain), XOR each with 3, and append
(a << 6) + (b << 4) + (c << 2) + d to the output bytearray (a
ValueError is raised when that value exceeds 255). -/
def pack2 : List ℕ → Except String (List ℕ)
  | [] => Except.ok []
  | a :: b :: c :: d :: rest =>
    let byte := ((a ^^^ 3) <<< 6) + ((b ^^^ 3) <<< 4) + ((c ^^^ 3) <<< 2) + (d ^^^ 3)
    if byte ≤ 255 then Except.map (fun bs => byte :: bs) (pack2 rest)
    else Except.error "ValueError"
  | _ => Except.error "IndexError"

/-- Packing as the specification words it: group pixels in runs of 4 in
row-major order, invert each value against its bit width by XOR with 3,
then pack as (v0 << 6) bor (v1 << 4) bor (v2 << 2) bor v3. -/
def packSpec : List ℕ → List ℕ
  | v0 :: v1 :: v2 :: v3 :: rest =>
    (((v0 ^^^ 3) <<< 6) ||| ((v1 ^^^ 3) <<< 4) ||| ((v2 ^^^ 3) <<< 2) ||| (v3 ^^^ 3))
      :: packSpec rest
  | _ => []

/-- Modelled from the spec: no unpacker exists in the source, so the
round-trip claim is settled against the inverse reading the spec
describes, namely reading the 2-bit fields of each byte
most-significant-first and XOR-ing each field with 3. -/
def unpack2 : List ℕ → List ℕ
  | [] => []
  | byte :: rest =>
    ((byte >>> 6) % 4 ^^^ 3) :: ((byte >>> 4) % 4 ^^^ 3) ::
      ((byte >>> 2) % 4 ^^^ 3) :: (byte % 4 ^^^ 3) :: unpack2 rest

/-- Kernel of the counterexample to claim C2: odd column count,
nonnegative entries of total weight 1/2, but a nonzero first-row
center entry. -/
def K2c : Kern := ⟨1, 3, fun a t => if a = 0 ∧ t = 1 then 1/2 else 0⟩

/-- Kernel of the counterexample to claim C9: odd column count,
nonnegative entries, total weight 1/2 (strictly below one). -/
def K9c : Kern := ⟨1, 3, fun a t => if a = 0 ∧ t = 2 then 1/2 else 0⟩

/-- Total weight the kernel applies from source pixel (i, j) to
in-bounds cells: kernel entry (a, t) lands on row i + a and column
j + t - mid, which exists precisely when i + a < m, K.mid ≤ j + t and
j + t - K.mid < n. -/
def winIn (K : Kern) (m n i j : ℕ) : ℚ :=
  ∑ p ∈ (kIdx K).filter
    (fun p => i + p.1 < m ∧ K.mid ≤ j + p.2 ∧ j + p.2 - K.mid < n), K.w p.1 p.2

/-- Total weight the kernel would send from source pixel (i, j) to
cells beyond the buffer bounds (clipped off by the slice bounds). -/
def winOut (K : Kern) (m n i j : ℕ) : ℚ :=
  ∑ p ∈ (kIdx K).filter
    (fun p => ¬(i + p.1 < m ∧ K.mid ≤ j + p.2 ∧ j + p.2 - K.mid < n)), K.w p.1 p.2

/-- Total rounding error introduced over all pixels of a dither run on
input buffer px (normalized by 255 as dither does). -/
def introducedTotal (K : Kern) (m n : ℕ) (px : ℕ → ℕ → ℚ) : ℚ :=
  ∑ i ∈ Finset.range m, ∑ j ∈ Finset.range n,
    errAt K m n (fun a b => px a b / 255) i j

/-- Total error diffused to in-bounds cells over a dither run. -/
def diffusedInTotal (K : Kern) (m n : ℕ) (px : ℕ → ℕ → ℚ) : ℚ :=
  ∑ i ∈ Finset.range m, ∑ j ∈ Finset.range n,
    errAt K m n (fun a b => px a b / 255) i j * winIn K m n i j

/-- Total error diffused off the image edge over a dither run. -/
def boundaryLoss (K : Kern) (m n : ℕ) (px : ℕ → ℕ → ℚ) : ℚ :=
  ∑ i ∈ Finset.range m, ∑ j ∈ Finset.range n,
    errAt K m n (fun a b => px a b / 255) i j * winOut K m n i j

/-- Heap-level model of the loop of dither: a store of numpy arrays in
which augmented assignment on a slice of px mutates, in place, the
array that px references (cell 1 of the store). -/
def ditherProgIter (K : Kern) (m n : ℕ) (s : List (ℕ → ℕ → ℚ)) :
    ℕ → List (ℕ → ℕ → ℚ)
  | 0 => s
  | k + 1 =>
    let s1 := ditherProgIter K m n s k
    s1.set 1 (stepPixel K m n (k / n) (k % n) (s1.getD 1 (fun _ _ => 0)))

/-- Heap-level model of a call to dither: cell 0 of the store holds the
caller's array; the statement px = px / 255 allocates a fresh array
(cell 1) and rebinds px to it; the loop mutates cell 1 in place; the
statement return px * 255 allocates again (cell 2) and returns it. The
result is the final store paired with the index of the returned
array. -/
def ditherProg (K : Kern) (m n : ℕ) (px : ℕ → ℕ → ℚ) :
    List (ℕ → ℕ → ℚ) × ℕ :=
  let s2 := ditherProgIter K m n [px, fun i j => px i j / 255] (m * n)
  (s2 ++ [fun r c => s2.getD 1 (fun _ _ => 0) r c * 255], 2)

/-- The rounding error of round-half-to-even is at most one half. -/
lemma rnd_abs_le (x : ℚ) : |x - (rnd x : ℤ)| ≤ 1/2 := by
  have h0 : ((⌊x⌋ : ℤ) : ℚ) ≤ x := Int.floor_le x
  have h1 : x < ⌊x⌋ + 1 := Int.lt_floor_add_one x
  unfold rnd
  split_ifs with hlt hgt heven <;>
    · rw [abs_le]; push_cast; constructor <;> linarith

/-- On samples between -1/2 and 3/2, round-half-to-even yields 0, 1, or
(exactly at the tie 3/2) the value 2. -/
lemma rnd_of_bounds (x : ℚ) (h0 : -(1/2) ≤ x) (h1 : x ≤ 3/2) :
    rnd x = 0 ∨ rnd x = 1 ∨ (rnd x = 2 ∧ x = 3/2) := by
  have hf0 : (-1 : ℤ) ≤ ⌊x⌋ := by
    apply Int.le_floor.mpr; push_cast; linarith
  have hf1 : ⌊x⌋ ≤ 1 := by
    have h2 : (⌊x⌋ : ℚ) ≤ 3/2 := le_trans (Int.floor_le x) h1
    by_contra hgt
    push_neg at hgt
    have : (2 : ℚ) ≤ (⌊x⌋ : ℚ) := by exact_mod_cast hgt
    linarith
  have hfl : ((⌊x⌋ : ℤ) : ℚ) ≤ x := Int.floor_le x
  have hfu : x < ⌊x⌋ + 1 := Int.lt_floor_add_one x
  have hcases : ⌊x⌋ = -1 ∨ ⌊x⌋ = 0 ∨ ⌊x⌋ = 1 := by omega
  unfold rnd
  rcases hcases with hf | hf | hf <;> rw [hf] <;> rw [hf] at hfl hfu <;>
      push_cast at hfl hfu <;> split_ifs with ha hb hc
  · exfalso; push_cast at ha; linarith
  · left; norm_num
  · exfalso; revert hc; decide
  · left; norm_num
  · left; norm_num
  · right; left; norm_num
  · left; norm_num
  · exfalso; exact hc rfl
  · right; left; norm_num
  · exfalso; push_cast at hb; linarith
  · exfalso; revert hc; decide
  · right; right
    refine ⟨by norm_num, ?_⟩
    push_cast at ha hb; linarith

/-- Row-major index arithmetic: the pixel of index r * n + c is at row
r and column c. -/
lemma rowMajor_inv (n r c : ℕ) (hc : c < n) :
    (r * n + c) / n = r ∧ (r * n + c) % n = c := by
  have hn : 0 < n := lt_of_le_of_lt (Nat.zero_le c) hc
  constructor
  · rw [mul_comm, Nat.mul_add_div hn, Nat.div_eq_of_lt hc, Nat.add_zero]
  · rw [mul_comm, Nat.mul_add_mod, Nat.mod_eq_of_lt hc]

/-- Pixels of strictly smaller row come strictly earlier in row-major
order, whatever the columns. -/
lemma rowMajor_lt_of_row_lt (n i j r c : ℕ) (hj : j < n) (hir : i < r) :
    i * n + j < r * n + c :=
  calc i * n + j < i * n + n := Nat.add_lt_add_left hj _
    _ = (i + 1) * n := by ring
    _ ≤ r * n := Nat.mul_le_mul_right n hir
    _ ≤ r * n + c := Nat.le_add_right _ _

/-- Closed form of the loop state of dither: an already visited pixel
holds its quantized value (since the first kernel row at and left of
the center is zero, later iterations add nothing to it), a pixel not
yet visited holds its input plus the contributions diffused into it by
the visited pixels, and a cell outside the buffer is never touched. -/
lemma ditherIter_char (K : Kern) (m n : ℕ) (px0 : ℕ → ℕ → ℚ)
    (hrow0 : ∀ t ≤ K.mid, K.w 0 t = 0) :
    ∀ k, k ≤ m * n → ∀ r c,
      ditherIter K m n px0 k r c =
        if r < m ∧ c < n ∧ r * n + c < k then (qAt K m n px0 r c : ℚ)
        else px0 r c + ∑ t ∈ Finset.range k, contrib K m n px0 t r c := by
  intro k
  induction k with
  | zero => intro _ r c; simp [ditherIter]
  | succ k ih =>
    intro hk r c
    have hkm : k < m * n := hk
    have hn : 0 < n := by
      rcases Nat.eq_zero_or_pos n with h | h
      · exfalso; rw [h, Nat.mul_zero] at hkm; exact Nat.not_lt_zero k hkm
      · exact h
    have hk2 : k ≤ m * n := Nat.le_of_lt hkm
    have hj : k % n < n := Nat.mod_lt _ hn
    have hi : k / n < m := (Nat.div_lt_iff_lt_mul hn).mpr hkm
    have hij : k / n * n + k % n = k := Nat.div_add_mod' k n
    have holdk : oldAt K m n px0 (k / n) (k % n)
        = ditherIter K m n px0 k (k / n) (k % n) := by
      rw [oldAt, hij]
    show stepPixel K m n (k / n) (k % n) (ditherIter K m n px0 k) r c = _
    simp only [stepPixel]
    by_cases hcur : r = k / n ∧ c = k % n
    · obtain ⟨h1, h2⟩ := hcur
      subst h1; subst h2
      conv_rhs => rw [if_pos ⟨hi, hj, by rw [hij]; exact Nat.lt_succ_self k⟩]
      have hq : ((rnd (ditherIter K m n px0 k (k / n) (k % n)) : ℤ) : ℚ)
          = ((qAt K m n px0 (k / n) (k % n) : ℤ) : ℚ) := by
        rw [qAt, holdk]
      simp only [eq_self_iff_true, and_self, if_true]
      split_ifs with hw
      · rw [Nat.sub_self]
        have hmid : K.mid + k % n - k % n = K.mid := by omega
        rw [hmid, hrow0 K.mid le_rfl, mul_zero, add_zero, hq]
      · rw [hq]
    · by_cases hprev : r < m ∧ c < n ∧ r * n + c < k
      · obtain ⟨hrm, hcn, hlt⟩ := hprev
        conv_rhs => rw [if_pos ⟨hrm, hcn, Nat.lt_succ_of_lt hlt⟩]
        have hbr : ditherIter K m n px0 k r c = (qAt K m n px0 r c : ℚ) := by
          rw [ih hk2 r c, if_pos ⟨hrm, hcn, hlt⟩]
        simp only [if_neg hcur]
        split_ifs with hw
        · obtain ⟨hw1, hw2, hw3, hw4⟩ := hw
          have hri : r = k / n := by
            by_contra hne
            have hlt2 : k / n < r := Nat.lt_of_le_of_ne hw1 (fun h => hne h.symm)
            have hgt : k < r * n + c := by
              calc k = k / n * n + k % n := hij.symm
                _ < r * n + c := rowMajor_lt_of_row_lt n (k / n) (k % n) r c hj hlt2
            omega
          have hcj : c < k % n := by
            have h5 : r * n + k % n = k := by rw [hri]; exact hij
            have h6 : r * n + c < r * n + k % n := by rw [h5]; exact hlt
            exact Nat.lt_of_add_lt_add_left h6
          have hwz : K.w (r - k / n) (K.mid + c - k % n) = 0 := by
            rw [hri, Nat.sub_self]
            exact hrow0 _ (by omega)
          rw [hwz, mul_zero, add_zero, hbr]
        · exact hbr
      · have hnot1 : ¬(r < m ∧ c < n ∧ r * n + c < k + 1) := by
          rintro ⟨hrm, hcn, hlt⟩
          rcases Nat.lt_succ_iff_lt_or_eq.mp hlt with h | h
          · exact hprev ⟨hrm, hcn, h⟩
          · obtain ⟨hd, hm2⟩ := rowMajor_inv n r c hcn
            rw [h] at hd hm2
            exact hcur ⟨hd.symm, hm2.symm⟩
        conv_rhs => rw [if_neg hnot1]
        have hbr : ditherIter K m n px0 k r c
            = px0 r c + ∑ t ∈ Finset.range k, contrib K m n px0 t r c := by
          rw [ih hk2 r c,
            if_neg (fun h => hnot1 ⟨h.1, h.2.1, Nat.lt_succ_of_lt h.2.2⟩)]
        rw [Finset.sum_range_succ]
        simp only [if_neg hcur]
        split_ifs with hw
        · have hcon : contrib K m n px0 k r c
              = errAt K m n px0 (k / n) (k % n) * K.w (r - k / n) (K.mid + c - k % n) := by
            rw [contrib, if_pos hw]
          have herr : ditherIter K m n px0 k (k / n) (k % n)
              - ((rnd (ditherIter K m n px0 k (k / n) (k % n)) : ℤ) : ℚ)
              = errAt K m n px0 (k / n) (k % n) := by
            rw [errAt, qAt, holdk]
          rw [hbr, hcon, herr]
          ring
        · have hcon : contrib K m n px0 k r c = 0 := by
            rw [contrib, if_neg hw]
          rw [hbr, hcon, add_zero]

/-- The residual error at any pixel has absolute value at most 1/2. -/
lemma errAt_abs_le (K : Kern) (m n : ℕ) (px0 : ℕ → ℕ → ℚ) (i j : ℕ) :
    |errAt K m n px0 i j| ≤ 1/2 := by
  rw [errAt, qAt]
  exact rnd_abs_le _

/-- The contributions diffused into a fixed cell come from pairwise
distinct kernel entries, so their total absolute value is at most half
the total kernel weight, hence at most 1/2. -/
lemma contrib_sum_abs_le (K : Kern) (m n : ℕ) (px0 : ℕ → ℕ → ℚ)
    (hodd : K.kc = 2 * K.mid + 1)
    (hnn : ∀ a < K.kr, ∀ t < K.kc, 0 ≤ K.w a t)
    (hsum : kernelSum K ≤ 1) (r c k : ℕ) :
    |∑ t ∈ Finset.range k, contrib K m n px0 t r c| ≤ 1/2 := by
  classical
  have hstep2 : ∀ t, |contrib K m n px0 t r c|
      ≤ (if t / n ≤ r ∧ r < min m (t / n + K.kr) ∧
            t % n - K.mid ≤ c ∧ c < min n (t % n + K.mid + 1) then
          (1/2) * K.w (r - t / n) (K.mid + c - t % n) else 0) := by
    intro t
    rw [contrib]
    split_ifs with hc1
    · obtain ⟨h1, h2, h3, h4⟩ := hc1
      have h2a : r < t / n + K.kr := (lt_min_iff.mp h2).2
      have h4a : c < t % n + K.mid + 1 := (lt_min_iff.mp h4).2
      have ha : r - t / n < K.kr := by omega
      have hb : K.mid + c - t % n < K.kc := by omega
      have hw0 : 0 ≤ K.w (r - t / n) (K.mid + c - t % n) := hnn _ ha _ hb
      rw [abs_mul, abs_of_nonneg hw0]
      exact mul_le_mul_of_nonneg_right (errAt_abs_le K m n px0 _ _) hw0
    · simp
  set F := (Finset.range k).filter (fun t =>
    t / n ≤ r ∧ r < min m (t / n + K.kr) ∧
      t % n - K.mid ≤ c ∧ c < min n (t % n + K.mid + 1)) with hF
  have hinj : ∀ x ∈ F, ∀ y ∈ F,
      (r - x / n, K.mid + c - x % n) = (r - y / n, K.mid + c - y % n) → x = y := by
    intro x hx y hy hxy
    rw [Prod.mk.injEq] at hxy
    obtain ⟨hfst, hsnd⟩ := hxy
    obtain ⟨hx1, hx2, hx3, hx4⟩ := (Finset.mem_filter.mp hx).2
    obtain ⟨hy1, hy2, hy3, hy4⟩ := (Finset.mem_filter.mp hy).2
    have hxe : x / n * n + x % n = x := Nat.div_add_mod' x n
    have hye : y / n * n + y % n = y := Nat.div_add_mod' y n
    have hdiv : x / n = y / n := by omega
    have hmod : x % n = y % n := by omega
    rw [← hxe, ← hye, hdiv, hmod]
  have himg : ∑ p ∈ F.image (fun t => (r - t / n, K.mid + c - t % n)),
      (1/2 : ℚ) * K.w p.1 p.2
      = ∑ t ∈ F, (1/2 : ℚ) * K.w (r - t / n) (K.mid + c - t % n) :=
    Finset.sum_image hinj
  have hsub : ∑ p ∈ F.image (fun t => (r - t / n, K.mid + c - t % n)),
      (1/2 : ℚ) * K.w p.1 p.2
      ≤ ∑ p ∈ kIdx K, (1/2 : ℚ) * K.w p.1 p.2 := by
    apply Finset.sum_le_sum_of_subset_of_nonneg
    · intro p hp
      obtain ⟨t, ht, hpt⟩ := Finset.mem_image.mp hp
      obtain ⟨h1, h2, h3, h4⟩ := (Finset.mem_filter.mp ht).2
      have h2a : r < t / n + K.kr := (lt_min_iff.mp h2).2
      have h4a : c < t % n + K.mid + 1 := (lt_min_iff.mp h4).2
      subst hpt
      simp only [kIdx, Finset.mem_product, Finset.mem_range]
      constructor
      · omega
      · omega
    · intro p hp _
      simp only [kIdx, Finset.mem_product, Finset.mem_range] at hp
      have := hnn p.1 hp.1 p.2 hp.2
      linarith
  have hfin : ∑ p ∈ kIdx K, (1/2 : ℚ) * K.w p.1 p.2 = (1/2) * kernelSum K := by
    rw [kernelSum, Finset.mul_sum]
  calc |∑ t ∈ Finset.range k, contrib K m n px0 t r c|
      ≤ ∑ t ∈ Finset.range k, |contrib K m n px0 t r c| :=
        Finset.abs_sum_le_sum_abs _ _
    _ ≤ ∑ t ∈ Finset.range k,
        (if t / n ≤ r ∧ r < min m (t / n + K.kr) ∧
            t % n - K.mid ≤ c ∧ c < min n (t % n + K.mid + 1) then
          (1/2) * K.w (r - t / n) (K.mid + c - t % n) else 0) :=
        Finset.sum_le_sum (fun t _ => hstep2 t)
    _ = ∑ t ∈ F, (1/2 : ℚ) * K.w (r - t / n) (K.mid + c - t % n) :=
        (Finset.sum_filter _ _).symm
    _ = ∑ p ∈ F.image (fun t => (r - t / n, K.mid + c - t % n)),
        (1/2 : ℚ) * K.w p.1 p.2 := himg.symm
    _ ≤ ∑ p ∈ kIdx K, (1/2 : ℚ) * K.w p.1 p.2 := hsub
    _ = (1/2) * kernelSum K := hfin
    _ ≤ 1/2 := by linarith

/-- Bounds on the accumulated sample of any in-range pixel: for inputs
normalized into the unit interval and a kernel of total weight at most
one, every accumulated sample stays between -1/2 and 3/2. -/
lemma oldAt_bounds (K : Kern) (m n : ℕ) (px0 : ℕ → ℕ → ℚ)
    (hodd : K.kc = 2 * K.mid + 1)
    (hnn : ∀ a < K.kr, ∀ t < K.kc, 0 ≤ K.w a t)
    (hsum : kernelSum K ≤ 1)
    (hrow0 : ∀ t ≤ K.mid, K.w 0 t = 0)
    (hpx0 : ∀ r < m, ∀ c < n, 0 ≤ px0 r c ∧ px0 r c ≤ 1)
    (r c : ℕ) (hr : r < m) (hc : c < n) :
    -(1/2) ≤ oldAt K m n px0 r c ∧ oldAt K m n px0 r c ≤ 3/2 := by
  have hn : 0 < n := lt_of_le_of_lt (Nat.zero_le c) hc
  have hkle : r * n + c ≤ m * n := by
    have h1 : r * n + c < r * n + n := Nat.add_lt_add_left hc _
    have h2 : r * n + n = (r + 1) * n := by ring
    have h3 : (r + 1) * n ≤ m * n := Nat.mul_le_mul_right n hr
    omega
  have hchar := ditherIter_char K m n px0 hrow0 (r * n + c) hkle r c
  rw [if_neg (by rintro ⟨-, -, habs⟩; omega)] at hchar
  have habs := contrib_sum_abs_le K m n px0 hodd hnn hsum r c (r * n + c)
  rw [abs_le] at habs
  have hpx := hpx0 r hr c hc
  rw [oldAt, hchar]
  constructor <;> linarith

/-- Closed form of the dither_bayer loop: after k iterations a visited
cell holds its thresholded value and any other cell still holds the
zero the output buffer was initialized with. -/
lemma bayerIter_char (m n : ℕ) (px : ℕ → ℕ → ℚ) :
    ∀ k, k ≤ m * n → ∀ r c,
      bayerIter n px k r c =
        if r < m ∧ c < n ∧ r * n + c < k then
          (if bayerM (r % bayerLen) (c % bayerLen) < px r c then 255 else 0)
        else 0 := by
  intro k
  induction k with
  | zero => intro _ r c; simp [bayerIter]
  | succ k ih =>
    intro hk r c
    have hkm : k < m * n := hk
    have hn : 0 < n := by
      rcases Nat.eq_zero_or_pos n with h | h
      · exfalso; rw [h, Nat.mul_zero] at hkm; exact Nat.not_lt_zero k hkm
      · exact h
    have hj : k % n < n := Nat.mod_lt _ hn
    have hi : k / n < m := (Nat.div_lt_iff_lt_mul hn).mpr hkm
    have hij : k / n * n + k % n = k := Nat.div_add_mod' k n
    simp only [bayerIter]
    by_cases hcur : r = k / n ∧ c = k % n
    · obtain ⟨h1, h2⟩ := hcur
      subst h1; subst h2
      rw [if_pos ⟨rfl, rfl⟩]
      conv_rhs => rw [if_pos ⟨hi, hj, by rw [hij]; exact Nat.lt_succ_self k⟩]
    · rw [if_neg hcur, ih (Nat.le_of_lt hkm) r c]
      by_cases hproc : r < m ∧ c < n ∧ r * n + c < k
      · rw [if_pos hproc]
        have hcond : r < m ∧ c < n ∧ r * n + c < k + 1 :=
          ⟨hproc.1, hproc.2.1, Nat.lt_succ_of_lt hproc.2.2⟩
        conv_rhs => rw [if_pos hcond]
      · have hnot1 : ¬(r < m ∧ c < n ∧ r * n + c < k + 1) := by
          rintro ⟨hrm, hcn, hlt⟩
          rcases Nat.lt_succ_iff_lt_or_eq.mp hlt with h | h
          · exact hproc ⟨hrm, hcn, h⟩
          · obtain ⟨hd, hm2⟩ := rowMajor_inv n r c hcn
            rw [h] at hd hm2
            exact hcur ⟨hd.symm, hm2.symm⟩
        rw [if_neg hproc, if_neg hnot1]

/-- Pointwise form of dither_bayer on in-range cells. -/
lemma dither_bayer_eq (m n : ℕ) (px : ℕ → ℕ → ℚ) (r c : ℕ)
    (hr : r < m) (hc : c < n) :
    dither_bayer m n px r c =
      if bayerM (r % bayerLen) (c % bayerLen) < px r c then 255 else 0 := by
  have hn : 0 < n := lt_of_le_of_lt (Nat.zero_le c) hc
  have hlt : r * n + c < m * n := by
    have h1 : r * n + c < r * n + n := Nat.add_lt_add_left hc _
    have h2 : r * n + n = (r + 1) * n := by ring
    have h3 : (r + 1) * n ≤ m * n := Nat.mul_le_mul_right n hr
    omega
  rw [dither_bayer, bayerIter_char m n px (m * n) le_rfl r c,
    if_pos ⟨hr, hc, hlt⟩]

/-- Every entry of the bayer matrix lies between 0 and 63/64. -/
lemma bayer_bound : ∀ r < 8, ∀ c < 8,
    0 ≤ bayerM r c ∧ bayerM r c ≤ 63/64 := by
  intro r hr c hc
  interval_cases r <;> interval_cases c <;>
    norm_num [bayerM, bayerRows, List.getD_cons_zero, List.getD_cons_succ]

/-- Four 2-bit values XORed against 3 pack into a byte below 256, and
packing by addition agrees with packing by bitwise or. -/
lemma pack_byte_facts : ∀ a < 4, ∀ b < 4, ∀ c < 4, ∀ d < 4,
    ((a ^^^ 3) <<< 6) + ((b ^^^ 3) <<< 4) + ((c ^^^ 3) <<< 2) + (d ^^^ 3) ≤ 255 ∧
    ((a ^^^ 3) <<< 6) + ((b ^^^ 3) <<< 4) + ((c ^^^ 3) <<< 2) + (d ^^^ 3)
      = ((a ^^^ 3) <<< 6) ||| ((b ^^^ 3) <<< 4) ||| ((c ^^^ 3) <<< 2) ||| (d ^^^ 3) := by
  decide

/-- On inputs of 2-bit values whose count is a multiple of four, the
packing loop succeeds and agrees with the specification packing. -/
lemma pack2_ok : ∀ vs : List ℕ, (∀ v ∈ vs, v ≤ 3) → vs.length % 4 = 0 →
    pack2 vs = Except.ok (packSpec vs)
  | [], _, _ => rfl
  | [_], _, hl => absurd hl (by norm_num)
  | [_, _], _, hl => absurd hl (by norm_num)
  | [_, _, _], _, hl => absurd hl (by norm_num)
  | a :: b :: c :: d :: rest, hb, hl => by
    have ha : a < 4 := Nat.lt_succ_of_le (hb a (by simp))
    have hbb : b < 4 := Nat.lt_succ_of_le (hb b (by simp))
    have hcc : c < 4 := Nat.lt_succ_of_le (hb c (by simp))
    have hdd : d < 4 := Nat.lt_succ_of_le (hb d (by simp))
    obtain ⟨hle, heq⟩ := pack_byte_facts a ha b hbb c hcc d hdd
    have hl2 : rest.length % 4 = 0 := by
      simp only [List.length_cons] at hl
      omega
    have hrest : pack2 rest = Except.ok (packSpec rest) :=
      pack2_ok rest (fun v hv => hb v (by simp [hv])) hl2
    have hle2 : ((a ^^^ 3) <<< 6 ||| (b ^^^ 3) <<< 4 |||
        (c ^^^ 3) <<< 2 ||| (d ^^^ 3)) ≤ 255 := heq ▸ hle
    simp only [pack2, packSpec, heq, if_pos hle2, hrest, Except.map_ok]
    rfl

/-- Reading the 2-bit fields of a packed byte recovers the four
original values. -/
lemma unpack_fields : ∀ a < 4, ∀ b < 4, ∀ c < 4, ∀ d < 4,
    unpack2 [((a ^^^ 3) <<< 6) ||| ((b ^^^ 3) <<< 4) |||
      ((c ^^^ 3) <<< 2) ||| (d ^^^ 3)] = [a, b, c, d] := by
  decide

/-- Unpacking inverts the specification packing on 2-bit inputs whose
count is a multiple of four. -/
lemma unpack2_packSpec : ∀ vs : List ℕ, (∀ v ∈ vs, v ≤ 3) →
    vs.length % 4 = 0 → unpack2 (packSpec vs) = vs
  | [], _, _ => rfl
  | [_], _, hl => absurd hl (by norm_num)
  | [_, _], _, hl => absurd hl (by norm_num)
  | [_, _, _], _, hl => absurd hl (by norm_num)
  | a :: b :: c :: d :: rest, hb, hl => by
    have ha : a < 4 := Nat.lt_succ_of_le (hb a (by simp))
    have hbb : b < 4 := Nat.lt_succ_of_le (hb b (by simp))
    have hcc : c < 4 := Nat.lt_succ_of_le (hb c (by simp))
    have hdd : d < 4 := Nat.lt_succ_of_le (hb d (by simp))
    have hl2 : rest.length % 4 = 0 := by
      simp only [List.length_cons] at hl
      omega
    have hrest : unpack2 (packSpec rest) = rest :=
      unpack2_packSpec rest (fun v hv => hb v (by simp [hv])) hl2
    have hfield := unpack_fields a ha b hbb c hcc d hdd
    simp only [unpack2, List.cons.injEq, and_true] at hfield
    obtain ⟨h1, h2, h3, h4⟩ := hfield
    simp only [packSpec, unpack2, hrest, h1, h2, h3, h4]

/-- The mutating loop of the heap-level model only ever writes cell 1,
whose content after k iterations is the functional loop state. -/
lemma ditherProgIter_shape (K : Kern) (m n : ℕ) (px q : ℕ → ℕ → ℚ) :
    ∀ k, ditherProgIter K m n [px, q] k = [px, ditherIter K m n q k] := by
  intro k
  induction k with
  | zero => rfl
  | succ k ih =>
    show (ditherProgIter K m n [px, q] k).set 1
        (stepPixel K m n (k / n) (k % n)
          ((ditherProgIter K m n [px, q] k).getD 1 (fun _ _ => 0))) = _
    rw [ih]
    rfl

/-- Claim C1, counterexample: for the diffusion kernel K1c (odd column
count, nonnegative entries of total weight one, first row at and left
of center zero) and the 8-bit input buffer px1c, the returned buffer
holds 510 at pixel (1, 1): the accumulated sample there is exactly 3/2
and Python round takes it to 2, not to a nearest value among 0 and 1,
so the output is not made only of 0 and 255. -/
theorem dither_not_bilevel_cx :
    K1c.kc = 2 * K1c.mid + 1 ∧
    (∀ a < K1c.kr, ∀ t < K1c.kc, 0 ≤ K1c.w a t) ∧
    kernelSum K1c ≤ 1 ∧
    (∀ t ≤ K1c.mid, K1c.w 0 t = 0) ∧
    (∀ r < 2, ∀ c < 2, 0 ≤ px1c r c ∧ px1c r c ≤ 255) ∧
    oldAt K1c 2 2 (fun i j => px1c i j / 255) 1 1 = 3/2 ∧
    dither K1c 2 2 px1c 1 1 = 510 ∧
    (510 : ℚ) ≠ 0 ∧ (510 : ℚ) ≠ 255 := by
  refine ⟨rfl, ?_, ?_, ?_, ?_, ?_, ?_, by norm_num, by norm_num⟩
  · intro a ha t ht
    have e1 : K1c.kr = 2 := rfl
    have e2 : K1c.kc = 3 := rfl
    rw [e1] at ha; rw [e2] at ht
    interval_cases a <;> interval_cases t <;> norm_num [K1c]
  · norm_num [kernelSum, kIdx, K1c, Finset.sum_product, Finset.sum_range_succ]
  · intro t ht
    have e3 : K1c.mid = 1 := rfl
    rw [e3] at ht
    interval_cases t <;> norm_num [K1c]
  · intro r hr c hc
    interval_cases r <;> interval_cases c <;> norm_num [px1c]
  · norm_num [oldAt, ditherIter, stepPixel, rnd, K1c, Kern.mid, px1c]
  · norm_num [dither, ditherIter, stepPixel, rnd, K1c, Kern.mid, px1c]

/-- Claim C1, amended: for every input buffer with entries in [0, 255]
and every diffusion kernel with odd column count, nonnegative weights
of total at most one and zero first row at and left of the center, the
engine sets the quantized output at each position to the Python
rounding (nearest integer, ties to even) of the accumulated sample,
and the returned buffer, after the final rescaling by 255, contains
only the values 0 and 255 except at pixels whose accumulated sample is
exactly 3/2, which come out as 510. -/
theorem dither_output_range (K : Kern) (m n : ℕ) (px : ℕ → ℕ → ℚ)
    (hodd : K.kc = 2 * K.mid + 1)
    (hnn : ∀ a < K.kr, ∀ t < K.kc, 0 ≤ K.w a t)
    (hsum : kernelSum K ≤ 1)
    (hrow0 : ∀ t ≤ K.mid, K.w 0 t = 0)
    (hpx : ∀ r < m, ∀ c < n, 0 ≤ px r c ∧ px r c ≤ 255)
    (r c : ℕ) (hr : r < m) (hc : c < n) :
    dither K m n px r c
      = ((qAt K m n (fun i j => px i j / 255) r c : ℤ) : ℚ) * 255 ∧
    (dither K m n px r c = 0 ∨ dither K m n px r c = 255 ∨
      (dither K m n px r c = 510 ∧
        oldAt K m n (fun i j => px i j / 255) r c = 3/2)) := by
  have hn : 0 < n := lt_of_le_of_lt (Nat.zero_le c) hc
  have hlt : r * n + c < m * n := by
    have h1 : r * n + c < r * n + n := Nat.add_lt_add_left hc _
    have h2 : r * n + n = (r + 1) * n := by ring
    have h3 : (r + 1) * n ≤ m * n := Nat.mul_le_mul_right n hr
    omega
  have hpx0 : ∀ a < m, ∀ b < n,
      0 ≤ (fun i j => px i j / 255) a b ∧ (fun i j => px i j / 255) a b ≤ 1 := by
    intro a ha b hbn
    obtain ⟨h1, h2⟩ := hpx a ha b hbn
    constructor
    · exact div_nonneg h1 (by norm_num)
    · show px a b / 255 ≤ 1
      rw [div_le_one (by norm_num)]
      linarith
  have hchar := ditherIter_char K m n (fun i j => px i j / 255) hrow0
    (m * n) le_rfl r c
  rw [if_pos ⟨hr, hc, hlt⟩] at hchar
  have hdith : dither K m n px r c
      = ((qAt K m n (fun i j => px i j / 255) r c : ℤ) : ℚ) * 255 := by
    show ditherIter K m n (fun i j => px i j / 255) (m * n) r c * 255 = _
    rw [hchar]
  have hb := oldAt_bounds K m n (fun i j => px i j / 255) hodd hnn hsum hrow0
    hpx0 r c hr hc
  have hq := rnd_of_bounds _ hb.1 hb.2
  refine ⟨hdith, ?_⟩
  rcases hq with h | h | ⟨h, hx⟩
  · left
    rw [hdith, qAt, h]
    norm_num
  · right; left
    rw [hdith, qAt, h]
    norm_num
  · right; right
    refine ⟨?_, hx⟩
    rw [hdith, qAt, h]
    norm_num

/-- Witness for the amended claim C1: floyd_steinberg on one mid-grey
pixel. -/
theorem dither_output_range_witness :
    dither floydSteinberg 1 1 (fun _ _ => 128) 0 0
      = ((qAt floydSteinberg 1 1 (fun _ _ => (128 : ℚ) / 255) 0 0 : ℤ) : ℚ) * 255 ∧
    (dither floydSteinberg 1 1 (fun _ _ => 128) 0 0 = 0 ∨
      dither floydSteinberg 1 1 (fun _ _ => 128) 0 0 = 255 ∨
      (dither floydSteinberg 1 1 (fun _ _ => 128) 0 0 = 510 ∧
        oldAt floydSteinberg 1 1 (fun _ _ => (128 : ℚ) / 255) 0 0 = 3/2)) :=
  dither_output_range floydSteinberg 1 1 (fun _ _ => 128) rfl
    (by
      intro a ha t ht
      have e1 : floydSteinberg.kr = 2 := rfl
      have e2 : floydSteinberg.kc = 3 := rfl
      rw [e1] at ha; rw [e2] at ht
      interval_cases a <;> interval_cases t <;> norm_num [floydSteinberg])
    (by norm_num [kernelSum, kIdx, floydSteinberg, Finset.sum_product,
      Finset.sum_range_succ])
    (by
      intro t ht
      have e3 : floydSteinberg.mid = 1 := rfl
      rw [e3] at ht
      interval_cases t <;> norm_num [floydSteinberg])
    (by intro a ha b hbn; norm_num)
    0 0 (by norm_num) (by norm_num)

/-- Claim C2, amended: at each pixel the engine adds (never overwrites)
error times weight onto the window clipped to the buffer bounds at
both edges with no wraparound, the kernel center column aligned over
the current pixel's column; but the current pixel's own column on the
current row is not skipped: the current pixel itself additionally
receives error times the first-row center weight on top of its
quantized value, so the skip is effective only for kernels whose
first-row center entry is zero. -/
theorem stepPixel_update (K : Kern) (m n i j : ℕ) (b : ℕ → ℕ → ℚ) :
    (∀ r c, ¬(r = i ∧ c = j) →
      ((r < i ∨ i + K.kr ≤ r ∨ m ≤ r ∨ n ≤ c ∨ c + K.mid < j ∨ j + K.mid < c →
          stepPixel K m n i j b r c = b r c) ∧
        (i ≤ r → r < i + K.kr → r < m → c < n → j ≤ c + K.mid → c ≤ j + K.mid →
          stepPixel K m n i j b r c
            = b r c + (b i j - ((rnd (b i j) : ℤ) : ℚ))
              * K.w (r - i) (K.mid + c - j)))) ∧
    (i < m → j < n → 1 ≤ K.kr →
      stepPixel K m n i j b i j
        = ((rnd (b i j) : ℤ) : ℚ)
          + (b i j - ((rnd (b i j) : ℤ) : ℚ)) * K.w 0 K.mid) := by
  refine ⟨?_, ?_⟩
  · intro r c hne
    refine ⟨?_, ?_⟩
    · intro hout
      have hwin : ¬(i ≤ r ∧ r < min m (i + K.kr) ∧
          j - K.mid ≤ c ∧ c < min n (j + K.mid + 1)) := by
        rintro ⟨h1, h2, h3, h4⟩
        rw [lt_min_iff] at h2 h4
        omega
      simp only [stepPixel]
      rw [if_neg hwin, if_neg hne]
    · intro h1 h2 h3 h4 h5 h6
      have hwin : i ≤ r ∧ r < min m (i + K.kr) ∧
          j - K.mid ≤ c ∧ c < min n (j + K.mid + 1) :=
        ⟨h1, lt_min_iff.mpr ⟨h3, h2⟩, by omega, lt_min_iff.mpr ⟨h4, by omega⟩⟩
      simp only [stepPixel]
      rw [if_pos hwin, if_neg hne]
  · intro him hjn hkr
    have hwin : i ≤ i ∧ i < min m (i + K.kr) ∧
        j - K.mid ≤ j ∧ j < min n (j + K.mid + 1) :=
      ⟨le_rfl, lt_min_iff.mpr ⟨him, by omega⟩, by omega,
        lt_min_iff.mpr ⟨hjn, by omega⟩⟩
    simp only [stepPixel]
    rw [if_pos hwin, if_pos (⟨trivial, trivial⟩ : True ∧ True), Nat.sub_self]
    have hm2 : K.mid + j - j = K.mid := by omega
    rw [hm2]

/-- Witness for the amended claim C2: a floyd_steinberg step on a 2 x 2
buffer of constant one half, observed at the right neighbor. -/
theorem stepPixel_update_witness :
    stepPixel floydSteinberg 2 2 0 0 (fun _ _ => 1/2) 0 1
      = (1/2 : ℚ) + ((1/2 : ℚ) - ((rnd ((1 : ℚ)/2) : ℤ) : ℚ))
        * floydSteinberg.w (0 - 0) (floydSteinberg.mid + 1 - 0) :=
  ((stepPixel_update floydSteinberg 2 2 0 0 (fun _ _ => 1/2)).1 0 1
    (by simp)).2 (by norm_num) (by decide) (by norm_num) (by norm_num)
    (by decide) (by decide)

/-- Claim C2, counterexample: for the kernel K2c whose first-row center
entry is 1/2, the engine does not skip the current pixel's own column
on the current row: on a 1 x 1 buffer holding 100 the returned value
is 50, not 255 times the quantized value 0. -/
theorem dither_center_not_skipped_cx :
    K2c.kc = 2 * K2c.mid + 1 ∧
    (∀ a < K2c.kr, ∀ t < K2c.kc, 0 ≤ K2c.w a t) ∧
    kernelSum K2c ≤ 1 ∧
    K2c.w 0 K2c.mid = 1/2 ∧
    dither K2c 1 1 (fun _ _ => 100) 0 0 = 50 ∧
    ((rnd ((100 : ℚ) / 255) : ℤ) : ℚ) * 255 = 0 ∧
    (50 : ℚ) ≠ 0 := by
  refine ⟨rfl, ?_, ?_, ?_, ?_, ?_, by norm_num⟩
  · intro a ha t ht
    have e1 : K2c.kr = 1 := rfl
    have e2 : K2c.kc = 3 := rfl
    rw [e1] at ha; rw [e2] at ht
    interval_cases a
    interval_cases t <;> norm_num [K2c]
  · norm_num [kernelSum, kIdx, K2c, Finset.sum_product, Finset.sum_range_succ]
  · norm_num [K2c, Kern.mid]
  · norm_num [dither, ditherIter, stepPixel, rnd, K2c, Kern.mid]
  · norm_num [rnd]

/-- Claim C3, amended: for every 2-bit packing input whose pixel count
is not a multiple of four, the packer does not silently drop the
trailing partial group: it raises an IndexError while reading past the
end of the input, and no byte list is returned. -/
theorem pack2_partial_group_error : ∀ vs : List ℕ, (∀ v ∈ vs, v ≤ 3) →
    vs.length % 4 ≠ 0 → pack2 vs = Except.error "IndexError"
  | [], _, hl => absurd rfl hl
  | [_], _, _ => rfl
  | [_, _], _, _ => rfl
  | [_, _, _], _, _ => rfl
  | a :: b :: c :: d :: rest, hb, hl => by
    have ha : a < 4 := Nat.lt_succ_of_le (hb a (by simp))
    have hbb : b < 4 := Nat.lt_succ_of_le (hb b (by simp))
    have hcc : c < 4 := Nat.lt_succ_of_le (hb c (by simp))
    have hdd : d < 4 := Nat.lt_succ_of_le (hb d (by simp))
    obtain ⟨hle, heq⟩ := pack_byte_facts a ha b hbb c hcc d hdd
    have hl2 : rest.length % 4 ≠ 0 := by
      simp only [List.length_cons] at hl
      omega
    have hrest : pack2 rest = Except.error "IndexError" :=
      pack2_partial_group_error rest (fun v hv => hb v (by simp [hv])) hl2
    have hle2 : ((a ^^^ 3) <<< 6 ||| (b ^^^ 3) <<< 4 |||
        (c ^^^ 3) <<< 2 ||| (d ^^^ 3)) ≤ 255 := heq ▸ hle
    simp only [pack2, heq, if_pos hle2, hrest]
    rfl

/-- Witness for the amended claim C3 on a three-pixel input. -/
theorem pack2_partial_group_error_witness :
    pack2 [1, 2, 3] = Except.error "IndexError" :=
  pack2_partial_group_error [1, 2, 3] (by decide) (by decide)

/-- Claim C3, counterexample: on a one-pixel input the packer raises an
IndexError instead of returning the bytes of the zero complete
groups. -/
theorem pack2_partial_group_cx :
    pack2 [0] = Except.error "IndexError" ∧ pack2 [0] ≠ Except.ok [] :=
  ⟨rfl, by simp [pack2]⟩

/-- Claim C4: for bitsPerPixel = 2 and every sequence of values in
[0, 3] whose length is a multiple of four, the packer takes groups of
four in row-major order, XORs each value with 3 and emits the byte
(v0 << 6) or (v1 << 4) or (v2 << 2) or v3; in particular the four
values 0, 1, 2, 3 pack to the single byte 0xE4. -/
theorem pack2_matches_spec :
    (∀ vs : List ℕ, (∀ v ∈ vs, v ≤ 3) → vs.length % 4 = 0 →
      pack2 vs = Except.ok (packSpec vs)) ∧
    packSpec [0, 1, 2, 3] = [0xE4] ∧
    pack2 [0, 1, 2, 3] = Except.ok [0xE4] :=
  ⟨pack2_ok, rfl, rfl⟩

/-- Witness for claim C4. -/
theorem pack2_matches_spec_witness :
    pack2 [1, 1, 0, 2] = Except.ok (packSpec [1, 1, 0, 2]) :=
  pack2_matches_spec.1 [1, 1, 0, 2] (by decide) (by decide)

/-- Claim C7: for every sequence of 2-bit values whose count is a
multiple of the packing group size four, unpacking the packed byte
sequence (reading 2-bit fields most-significant-first and XOR-ing each
field with 3) restores exactly the original values. -/
theorem unpack2_pack2_roundtrip : ∀ vs : List ℕ, (∀ v ∈ vs, v ≤ 3) →
    vs.length % 4 = 0 → Except.map unpack2 (pack2 vs) = Except.ok vs := by
  intro vs hbv hl
  rw [pack2_ok vs hbv hl]
  show Except.ok (unpack2 (packSpec vs)) = Except.ok vs
  rw [unpack2_packSpec vs hbv hl]

/-- Witness for claim C7. -/
theorem unpack2_pack2_roundtrip_witness :
    Except.map unpack2 (pack2 [0, 1, 2, 3]) = Except.ok [0, 1, 2, 3] :=
  unpack2_pack2_roundtrip [0, 1, 2, 3] (by decide) (by decide)

/-- Claim C5: the ordered-dithering engine outputs, at each in-range
position (row, col), the value 255 if the pixel's intensity strictly
exceeds the threshold at (row mod T, col mod T) and 0 otherwise, where
T = len(bayer) = 8, with no state carried between pixels (the output
depends only on the pixel's own value and position). -/
theorem dither_bayer_pointwise :
    bayerLen = 8 ∧
    ∀ m n px r c, r < m → c < n →
      dither_bayer m n px r c =
        if bayerM (r % bayerLen) (c % bayerLen) < px r c then 255 else 0 :=
  ⟨rfl, fun m n px r c hr hc => dither_bayer_eq m n px r c hr hc⟩

/-- Witness for claim C5. -/
theorem dither_bayer_pointwise_witness :
    dither_bayer 1 1 (fun _ _ => 100) 0 0 =
      if bayerM (0 % bayerLen) (0 % bayerLen) < (100 : ℚ) then 255 else 0 :=
  dither_bayer_pointwise.2 1 1 (fun _ _ => 100) 0 0 (by norm_num) (by norm_num)

/-- Claim C6: every entry of the built-in 8 x 8 bayer threshold matrix
lies in [0, 63/64]; consequently, on any buffer of 8-bit natural
number intensities, the engine outputs 255 at every in-range pixel of
intensity at least one and outputs 0 exactly at the pixels of
intensity zero. -/
theorem bayer_always_white_above_zero :
    (∀ r < 8, ∀ c < 8, 0 ≤ bayerM r c ∧ bayerM r c ≤ 63/64) ∧
    ∀ m n (pxN : ℕ → ℕ → ℕ) r c, r < m → c < n →
      ((1 ≤ pxN r c →
          dither_bayer m n (fun a b => (pxN a b : ℚ)) r c = 255) ∧
        (dither_bayer m n (fun a b => (pxN a b : ℚ)) r c = 0 ↔ pxN r c = 0)) := by
  refine ⟨bayer_bound, ?_⟩
  intro m n pxN r c hr hc
  have hL : bayerLen = 8 := rfl
  have h8r : r % bayerLen < 8 := by rw [hL]; exact Nat.mod_lt _ (by norm_num)
  have h8c : c % bayerLen < 8 := by rw [hL]; exact Nat.mod_lt _ (by norm_num)
  have hbd := bayer_bound _ h8r _ h8c
  rw [dither_bayer_eq m n _ r c hr hc]
  have hpos : 1 ≤ pxN r c →
      bayerM (r % bayerLen) (c % bayerLen) < ((pxN r c : ℕ) : ℚ) := by
    intro h1
    have h2 : (1 : ℚ) ≤ ((pxN r c : ℕ) : ℚ) := by exact_mod_cast h1
    have h3 : bayerM (r % bayerLen) (c % bayerLen) ≤ 63/64 := hbd.2
    linarith
  refine ⟨?_, ?_, ?_⟩
  · intro h1
    rw [if_pos (hpos h1)]
  · intro h0
    by_contra hne
    have h1 : 1 ≤ pxN r c := Nat.one_le_iff_ne_zero.mpr hne
    rw [if_pos (hpos h1)] at h0
    norm_num at h0
  · intro h0
    rw [h0, Nat.cast_zero, if_neg (not_lt.mpr hbd.1)]

/-- Witness for claim C6. -/
theorem bayer_always_white_above_zero_witness :
    dither_bayer 1 1 (fun _ _ => ((5 : ℕ) : ℚ)) 0 0 = 255 :=
  (bayer_always_white_above_zero.2 1 1 (fun _ _ => 5) 0 0 (by norm_num)
    (by norm_num)).1 (by norm_num)

/-- Claim C8: ordered dithering applied twice to an already bilevel
buffer (values only 0 or 255) returns the buffer unchanged at every
in-range cell. -/
theorem dither_bayer_idempotent (m n : ℕ) (px : ℕ → ℕ → ℚ)
    (hbl : ∀ r < m, ∀ c < n, px r c = 0 ∨ px r c = 255)
    (r c : ℕ) (hr : r < m) (hc : c < n) :
    dither_bayer m n (dither_bayer m n px) r c = px r c := by
  have hL : bayerLen = 8 := rfl
  have hfix : ∀ a, a < m → ∀ e, e < n → dither_bayer m n px a e = px a e := by
    intro a ha e he
    have h8a : a % bayerLen < 8 := by rw [hL]; exact Nat.mod_lt _ (by norm_num)
    have h8e : e % bayerLen < 8 := by rw [hL]; exact Nat.mod_lt _ (by norm_num)
    have hbd := bayer_bound _ h8a _ h8e
    rw [dither_bayer_eq m n px a e ha he]
    rcases hbl a ha e he with h | h
    · rw [h, if_neg (not_lt.mpr hbd.1)]
    · rw [h, if_pos (by linarith [hbd.2] : bayerM (a % bayerLen) (e % bayerLen) < 255)]
  rw [dither_bayer_eq m n _ r c hr hc, hfix r hr c hc,
    ← dither_bayer_eq m n px r c hr hc]
  exact hfix r hr c hc

/-- Witness for claim C8 on a constant white buffer. -/
theorem dither_bayer_idempotent_witness :
    dither_bayer 1 1 (dither_bayer 1 1 (fun _ _ => 255)) 0 0 = (255 : ℚ) :=
  dither_bayer_idempotent 1 1 (fun _ _ => 255)
    (fun _ _ _ _ => Or.inr rfl) 0 0 (by norm_num) (by norm_num)

/-- Claim C9, amended: for every input buffer and every kernel whose
weights sum to exactly one, the total rounding error introduced over
all pixels, minus the error actually diffused to in-bounds cells,
equals the error diffused off the image edge. -/
theorem error_conservation (K : Kern) (m n : ℕ) (px : ℕ → ℕ → ℚ)
    (hsum : kernelSum K = 1) :
    introducedTotal K m n px - diffusedInTotal K m n px
      = boundaryLoss K m n px := by
  have hsplit : ∀ i j, winIn K m n i j + winOut K m n i j = 1 := by
    intro i j
    rw [winIn, winOut, Finset.sum_filter_add_sum_filter_not]
    exact hsum
  rw [introducedTotal, diffusedInTotal, boundaryLoss, ← Finset.sum_sub_distrib]
  apply Finset.sum_congr rfl
  intro i _
  rw [← Finset.sum_sub_distrib]
  apply Finset.sum_congr rfl
  intro j _
  have h := hsplit i j
  calc errAt K m n (fun a b => px a b / 255) i j
        - errAt K m n (fun a b => px a b / 255) i j * winIn K m n i j
      = errAt K m n (fun a b => px a b / 255) i j
          * (winIn K m n i j + winOut K m n i j)
        - errAt K m n (fun a b => px a b / 255) i j * winIn K m n i j := by
        rw [h, mul_one]
    _ = errAt K m n (fun a b => px a b / 255) i j * winOut K m n i j := by
        ring

/-- Witness for the amended claim C9: floyd_steinberg on one pixel. -/
theorem error_conservation_witness :
    introducedTotal floydSteinberg 1 1 (fun _ _ => 128)
      - diffusedInTotal floydSteinberg 1 1 (fun _ _ => 128)
      = boundaryLoss floydSteinberg 1 1 (fun _ _ => 128) :=
  error_conservation floydSteinberg 1 1 (fun _ _ => 128)
    (by norm_num [kernelSum, kIdx, floydSteinberg, Finset.sum_product,
      Finset.sum_range_succ])

/-- Claim C9, counterexample: for the kernel K9c, whose weights are
nonnegative and sum to 1/2 (at most one, as the claim allows), on a
single pixel of value 100 the introduced error is 20/51 and nothing is
diffused in bounds, yet the boundary loss is only 10/51: the claimed
identity fails for kernels whose weights sum to strictly less than
one. -/
theorem error_conservation_cx :
    kernelSum K9c ≤ 1 ∧
    (∀ a < K9c.kr, ∀ t < K9c.kc, 0 ≤ K9c.w a t) ∧
    K9c.kc = 2 * K9c.mid + 1 ∧
    introducedTotal K9c 1 1 (fun _ _ => 100)
      - diffusedInTotal K9c 1 1 (fun _ _ => 100) = 20/51 ∧
    boundaryLoss K9c 1 1 (fun _ _ => 100) = 10/51 ∧
    (20/51 : ℚ) ≠ 10/51 := by
  refine ⟨?_, ?_, rfl, ?_, ?_, by norm_num⟩
  · norm_num [kernelSum, kIdx, K9c, Finset.sum_product, Finset.sum_range_succ]
  · intro a ha t ht
    have e1 : K9c.kr = 1 := rfl
    have e2 : K9c.kc = 3 := rfl
    rw [e1] at ha; rw [e2] at ht
    interval_cases a
    interval_cases t <;> norm_num [K9c]
  · have he : errAt K9c 1 1 (fun a b => (fun _ _ => (100 : ℚ)) a b / 255) 0 0
        = 20/51 := by
      norm_num [errAt, oldAt, qAt, rnd, ditherIter]
    have hwi : winIn K9c 1 1 0 0 = 0 := by
      norm_num [winIn, kIdx, K9c, Kern.mid, Finset.sum_filter,
        Finset.sum_product, Finset.sum_range_succ, Finset.sum_range_zero]
    rw [introducedTotal, diffusedInTotal]
    simp only [Finset.sum_range_one]
    rw [he, hwi]
    norm_num
  · have he : errAt K9c 1 1 (fun a b => (fun _ _ => (100 : ℚ)) a b / 255) 0 0
        = 20/51 := by
      norm_num [errAt, oldAt, qAt, rnd, ditherIter]
    have hwo : winOut K9c 1 1 0 0 = 1/2 := by
      norm_num [winOut, kIdx, K9c, Kern.mid, Finset.sum_filter,
        Finset.sum_product, Finset.sum_range_succ, Finset.sum_range_zero]
    rw [boundaryLoss]
    simp only [Finset.sum_range_one]
    rw [he, hwo]
    norm_num

/-- Claim C10: in the heap model of dither, the caller's array (cell 0
of the store) is left unchanged -- the statement px = px / 255
allocates a fresh array and rebinds the local name, so all loop
mutation happens on that copy -- and the call returns a reference to a
freshly allocated cell, distinct from the input cell, holding the
functional result of dither. -/
theorem dither_fresh_output (K : Kern) (m n : ℕ) (px : ℕ → ℕ → ℚ) :
    (ditherProg K m n px).1.get? 0 = some px ∧
    (ditherProg K m n px).2 ≠ 0 ∧
    (ditherProg K m n px).1.get? (ditherProg K m n px).2
      = some (fun r c => dither K m n px r c) := by
  have hs := ditherProgIter_shape K m n px (fun i j => px i j / 255) (m * n)
  refine ⟨?_, by show (2 : ℕ) ≠ 0; norm_num, ?_⟩
  · show (ditherProgIter K m n [px, fun i j => px i j / 255] (m * n)
      ++ [fun r c => (ditherProgIter K m n [px, fun i j => px i j / 255]
        (m * n)).getD 1 (fun _ _ => 0) r c * 255]).get? 0 = some px
    rw [hs]
    rfl
  · show (ditherProgIter K m n [px, fun i j => px i j / 255] (m * n)
      ++ [fun r c => (ditherProgIter K m n [px, fun i j => px i j / 255]
        (m * n)).getD 1 (fun _ _ => 0) r c * 255]).get? 2
      = some (fun r c => dither K m n px r c)
    rw [hs]
    rfl
